import Mathlib

/-!
Shallow embedding of the fraggler calibration-and-quantification pipeline
(repository `willros/fraggler`), covering:

* `fraggler/ladder_fitting/peak_ladder_assigner.py` (`PeakLadderAssigner`)
* `fraggler/ladder_fitting/fit_ladder_model.py` (`FitLadderModel`)
* `fraggler/utils/peak_finder.py` (`PeakFinder`, `is_overlapping`, `has_columns`)
* `fraggler/applications/peak_area_multiplex.py` (`PeakAreaDeMultiplex`)

Floating-point quantities of the Python code (intensities, basepairs, fitted
amplitudes) are modelled as rationals; numpy/pandas array pipelines are
modelled as Lean list transformations; raised Python exceptions are modelled
with `Except`.  Numeric library calls whose output is data for the logic under
scrutiny but whose internals are irrelevant to the claims (the sklearn spline
regression predictor, the lmfit amplitudes, the spline-derivative score) are
taken as function parameters.
-/

namespace Fraggler

/-! ## Quantification Engine: `PeakAreaDeMultiplex.calculate_quotient`

`calculate_quotient` works on `areas`, the vector of fitted `amplitude`
values of the current assay (one per fitted peak, in basepair order), and on
`self.cutoff` together with the mean of the `basepairs` column of the
concatenated per-peak fit windows.  The amplitudes and the mean are produced
by lmfit; they enter the embedding as values.
-/

/-- Mean of a list of rationals, as `pandas.Series.mean`: sum divided by
length (`0/0 = 0` for the empty list, which the code never hits on the
branch where `mean` is used). -/
def listMean (l : List ℚ) : ℚ := l.sum / l.length

/-- Embedding of `PeakAreaDeMemultiplex.calculate_quotient`
(`fraggler/applications/peak_area_multiplex.py`, lines 383-414).

* `areas` models `np.array([x["amplitude"] for x in self.fit_params])`;
* `cutoff` models `self.cutoff` (`none` = Python `None`);
* `meanBasepairs` models `pd.concat(self.fit_df).basepairs.mean()`.

The Python method stores its result in `self.quotient`; here it is returned.
`none` models the `IndexError` of `areas[-1]` when `areas` is empty. -/
def calculate_quotient (areas : List ℚ) (cutoff : Option ℚ) (meanBasepairs : ℚ) :
    Option ℚ :=
  let rightByLeft : Bool :=
    match cutoff with
    | none => true
    | some c => !(decide (meanBasepairs < c))
  match areas with
  | [] => none
  | [a] =>
    -- `if len(areas) == 1: self.quotient = 0`
    let _ := a
    some 0
  | [a₀, a₁] =>
    -- `if len(areas) == 2`: direction decided by `right_by_left`
    if !rightByLeft then some (a₀ / a₁) else some (a₁ / a₀)
  | a₀ :: a₁ :: a₂ :: rest =>
    -- `self.quotient = areas[-1] / areas[:-1].mean()`
    let all := a₀ :: a₁ :: a₂ :: rest
    some ((all.getLast (by simp [all])) / listMean (all.dropLast))

/-! ## Calibration Model: `FitLadderModel.generate_adjusted_trace_df`

The sklearn pipeline `self.model` is abstracted as a family of predictors
`pred : ℕ → ℕ → ℚ`: `pred k t` is the basepair value the model fitted with
`n_knots = k` predicts at trace time index `t`.  (`fit_model` deterministically
refits the model from `self.n_knots`, so the model state is a function of the
knot count.)  The sample trace enters only through its length `n`: the
`peaks` column is never consulted by this method.
-/

/-- One trace table as built inside `generate_adjusted_trace_df`
(`fraggler/ladder_fitting/fit_ladder_model.py`, lines 84-94): rows
`(time, basepairs)` for `time = 0 .. n-1` with `basepairs = model.predict(time)`,
keeping only rows with `basepairs >= 0`.  (The `peaks` column is carried by
the Python frame but unused by the uniqueness check; it is omitted here.) -/
def adjusted_trace_rows (predict : ℕ → ℚ) (n : ℕ) : List (ℕ × ℚ) :=
  ((List.range n).map (fun t => (t, predict t))).filter (fun r => decide (0 ≤ r.2))

/-- `df.shape[0] == df.basepairs.nunique()`: the number of rows equals the
number of distinct basepair values. -/
def basepairsAllUnique (df : List (ℕ × ℚ)) : Bool :=
  decide (df.length = (df.map Prod.snd).dedup.length)

/-- Fuelled retry loop of `generate_adjusted_trace_df`: at each attempt the
table is built from the model fitted with the current knot count `k`; if the
uniqueness check passes the table is returned, otherwise `n_knots` is
incremented and the model refit.  `fuel` counts the remaining iterations of
`for _ in range(10)`. -/
def adjustedTraceLoop (pred : ℕ → ℕ → ℚ) (n : ℕ) : ℕ → ℕ → Except Unit (List (ℕ × ℚ))
  | 0, _ => .error ()
  | fuel + 1, k =>
    let df := adjusted_trace_rows (pred k) n
    if basepairsAllUnique df then .ok df
    else adjustedTraceLoop pred n fuel (k + 1)

/-- Embedding of `FitLadderModel.generate_adjusted_trace_df`
(`fraggler/ladder_fitting/fit_ladder_model.py`, lines 75-106): up to 10
attempts starting from knot count `k0` (the instance starts with
`self.n_knots = 2`); `Except.error ()` models `raise ModelFittingError(...)`. -/
def generate_adjusted_trace_df (pred : ℕ → ℕ → ℚ) (n : ℕ) (k0 : ℕ) :
    Except Unit (List (ℕ × ℚ)) :=
  adjustedTraceLoop pred n 10 k0

/-! ## Ladder Peak Assigner: `PeakLadderAssigner`

`get_peaks` returns the kept candidate peak time indices sorted ascending
(`df.nlargest(...)["peaks"].sort_values().to_numpy()`); the embedding starts
from that list `peaks` of natural time indices.  Since `peaks` is sorted
ascending with distinct entries, the code's edge `peaks[i] -> peaks[j]`
for `i < j` with `peaks[j] - peaks[i] <= max_ladder_trace_distance`
is the value-level relation `edgeB`.

`networkx.all_simple_paths` is modelled by a fuelled depth-first enumeration
`pathsFrom`; for `source = target` it yields the single-node path, as
networkx (>= 3.1) does.  Because every edge strictly increases the node
value, every enumerated path is automatically simple.

All three exceptions the Python search can raise are `ValueError`s: the two
explicit `raise ValueError(...)` in `generate_combinations` and the
`ValueError` that `np.vectorize` raises in `get_best_fit` when the
combination list is empty.  They are modelled by the three constructors of
`AssignError`.  The scoring function
`_max_spline_second_derivative_score` (a scipy spline second derivative) is
abstracted as a parameter `score`. -/

/-- Graph edge of `PeakLadderAssigner.generate_graph`
(`fraggler/ladder_fitting/peak_ladder_assigner.py`, lines 88-113): an edge
from `a` to `b` exists iff `a` comes before `b` in the sorted peak list and
`b - a <= max_ladder_trace_distance`. -/
def edgeB (maxDist : ℕ) (a b : ℕ) : Bool :=
  decide (a < b) && decide (b - a ≤ maxDist)

/-- Nodes of zero in-degree (`graph.in_degree(node) == 0`). -/
def startNodes (peaks : List ℕ) (maxDist : ℕ) : List ℕ :=
  peaks.filter (fun a => peaks.all (fun b => !edgeB maxDist b a))

/-- Nodes of zero out-degree (`graph.out_degree(node) == 0`). -/
def endNodes (peaks : List ℕ) (maxDist : ℕ) : List ℕ :=
  peaks.filter (fun a => peaks.all (fun b => !edgeB maxDist a b))

/-- Successor nodes of `a` in the peak graph. -/
def succNodes (peaks : List ℕ) (maxDist : ℕ) (a : ℕ) : List ℕ :=
  peaks.filter (fun b => edgeB maxDist a b)

/-- All directed paths starting at `a`, enumerated depth-first with `fuel`
bounding the number of extension steps.  With `fuel = peaks.length` this
covers every simple path of the (acyclic) peak graph. -/
def pathsFrom (peaks : List ℕ) (maxDist : ℕ) : ℕ → ℕ → List (List ℕ)
  | 0, a => [[a]]
  | fuel + 1, a =>
    [a] :: (succNodes peaks maxDist a).flatMap
      (fun b => (pathsFrom peaks maxDist fuel b).map (fun p => a :: p))

/-- All simple paths from some zero-in-degree node to some zero-out-degree
node, as collected by the `for start_node ... for end_node ...` loops of
`generate_combinations`. -/
def allLadderPaths (peaks : List ℕ) (maxDist : ℕ) : List (List ℕ) :=
  (startNodes peaks maxDist).flatMap (fun s =>
    (endNodes peaks maxDist).flatMap (fun e =>
      (pathsFrom peaks maxDist peaks.length s).filter
        (fun p => decide (p.getLast? = some e))))

/-- Contiguous windows of exactly `refCount` nodes of one path:
`for i in range(0, len(p_arr) - self.fsa_file.ref_count + 1):
   yield np.array(p_arr[i : i + self.fsa_file.ref_count])`.
Python's `range` is empty when `len(p_arr) < ref_count`, hence the guard. -/
def pathWindows (refCount : ℕ) (p : List ℕ) : List (List ℕ) :=
  if refCount ≤ p.length then
    (List.range (p.length - refCount + 1)).map (fun i => (p.drop i).take refCount)
  else []

/-- Errors of the ladder search; each corresponds to a Python `ValueError`:
`noStartOrEnd` and `noPaths` to the two explicit raises in
`generate_combinations` ("Graph does not have start or end nodes",
"No paths found from start to end nodes"), `emptyCombinations` to the
`ValueError` `np.vectorize` raises in `get_best_fit` on a size-0 input. -/
inductive AssignError where
  | noStartOrEnd
  | noPaths
  | emptyCombinations
deriving DecidableEq

/-- Embedding of `PeakLadderAssigner.generate_combinations`
(`fraggler/ladder_fitting/peak_ladder_assigner.py`, lines 115-149), with the
generator forced into the list of all yielded combinations (the caller
`get_best_fit` immediately materialises it with `list(combinations)`). -/
def generate_combinations (peaks : List ℕ) (maxDist refCount : ℕ) :
    Except AssignError (List (List ℕ)) :=
  if (startNodes peaks maxDist).isEmpty || (endNodes peaks maxDist).isEmpty then
    .error .noStartOrEnd
  else
    let allPaths := allLadderPaths peaks maxDist
    if allPaths.isEmpty then .error .noPaths
    else .ok (allPaths.flatMap (pathWindows refCount))

/-- First element of minimal score: `get_best_fit` scores every combination,
sorts ascending by score (pandas `sort_values`, a stable sort) and takes the
head, so the returned combination is the first one attaining the minimal
score in generation order. -/
def bestOf (score : List ℕ → ℚ) (c : List ℕ) (cs : List (List ℕ)) : List ℕ :=
  cs.foldl (fun best d => if score d < score best then d else best) c

/-- Embedding of `PeakLadderAssigner.get_best_fit`
(`fraggler/ladder_fitting/peak_ladder_assigner.py`, lines 151-188) with the
default `method="2nd_derivative"`; `score` abstracts
`_max_spline_second_derivative_score`. -/
def get_best_fit (score : List ℕ → ℚ) (combinations : List (List ℕ)) :
    Except AssignError (List ℕ) :=
  match combinations with
  | [] => .error .emptyCombinations
  | c :: cs => .ok (bestOf score c cs)

/-- Embedding of `PeakLadderAssigner.assign_ladder_peak_sizes`
(`fraggler/ladder_fitting/peak_ladder_assigner.py`, lines 43-55), starting
from the sorted candidate peak list produced by `get_peaks`. -/
def assign_ladder_peak_sizes (peaks : List ℕ) (maxDist refCount : ℕ)
    (score : List ℕ → ℚ) : Except AssignError (List ℕ) :=
  match generate_combinations peaks maxDist refCount with
  | .error e => .error e
  | .ok combinations => get_best_fit score combinations

/-! ## Peak Finder custom-table validation
(`fraggler/utils/peak_finder.py`, lines 18-118)

A custom peak table is modelled by its column-name list and, for each row,
the integer values of the `start` and `stop` cells (the only cells the
validation functions read).  Python exceptions are distinguished by
`ValidationError`: the two named custom errors, plus the pandas errors that
`is_overlapping` itself raises when the columns it uses are absent
(`df.sort_values("start")` raises a `KeyError`; `y.stop` on the itertuples
row raises an `AttributeError`). -/

/-- Custom peak table as seen by `run_validation`. -/
structure CustomTable where
  columns : List String
  rows : List (ℤ × ℤ)
deriving DecidableEq

inductive ValidationError where
  | keyError
  | attributeError
  | overlappingInterval
  | wrongColumns
deriving DecidableEq

/-- Integer members of the half-open interval `[s, e)`, as Python
`range(s, e)`. -/
def intervalMembers (s e : ℤ) : List ℤ :=
  (List.range (e - s).toNat).map (fun k => s + k)

/-- One row's contribution to the exploded `intervals` column: its interval
members, or a single `none` (pandas `NaN`) for an empty interval, as
`DataFrame.explode` produces on an empty list-like. -/
def explodedRow (r : ℤ × ℤ) : List (Option ℤ) :=
  match intervalMembers r.1 r.2 with
  | [] => [none]
  | l => l.map some

/-- Exploded `intervals` column of `is_overlapping`.  The
`sort_values("start")` reordering is immaterial to the two statistics taken
from this column (row count and number of distinct non-null values), so rows
are traversed in table order. -/
def explodedIntervals (rows : List (ℤ × ℤ)) : List (Option ℤ) :=
  rows.flatMap explodedRow

/-- Embedding of `is_overlapping` (`fraggler/utils/peak_finder.py`, lines
18-40): overlap is reported iff the exploded interval column has fewer
distinct non-null values (`nunique`) than rows (`shape[0]`).
`df.sort_values("start")` raises a `KeyError` whenever the `start` column is
absent, even on a zero-row table; `y.stop` raises an `AttributeError` when
the `stop` column is absent, but only if `itertuples()` yields at least one
row — on a zero-row table the comprehension never runs and the check
returns `False`. -/
def is_overlapping (t : CustomTable) : Except ValidationError Bool :=
  if t.columns.contains "start" = false then .error .keyError
  else if t.columns.contains "stop" = false ∧ t.rows ≠ [] then .error .attributeError
  else
    let exploded := explodedIntervals t.rows
    .ok (decide (exploded.length ≠ (exploded.filterMap id).dedup.length))

/-- Required column set of a custom peak table. -/
def requiredColumns : List String :=
  ["name", "start", "stop", "amount", "min_ratio", "which", "peak_distance"]

/-- Embedding of `has_columns` (`fraggler/utils/peak_finder.py`, lines
43-70): true iff the column set has the same cardinality as the required set
and their intersection has the cardinality of the column set. -/
def has_columns (t : CustomTable) : Bool :=
  let dfColumns := t.columns.dedup
  if requiredColumns.length ≠ dfColumns.length then false
  else if (dfColumns.filter (fun c => requiredColumns.contains c)).length ≠
      dfColumns.length then false
  else true

/-- Embedding of `PeakFinder.run_validation`
(`fraggler/utils/peak_finder.py`, lines 108-118): nothing to check without a
custom table; otherwise the overlap check runs first and raises
`OverlappingIntervalError` on overlap, then the column check raises
`WrongColumnsError` when the column set is not exactly the required one. -/
def run_validation (custom : Option CustomTable) : Except ValidationError Unit :=
  match custom with
  | none => .ok ()
  | some t =>
    match is_overlapping t with
    | .error e => .error e
    | .ok true => .error .overlappingInterval
    | .ok false =>
      if has_columns t = false then .error .wrongColumns else .ok ()

/-- `PeakFinder.__init__` sequencing (`fraggler/utils/peak_finder.py`, lines
101-106): `run_validation` runs first; only if it returns does `find_peaks`
(abstracted as `detect`, covering both the custom and the agnostic branch)
run.  A raised validation error propagates and no detection output exists. -/
def peakFinderInit {α : Type} (custom : Option CustomTable) (detect : Unit → α) :
    Except ValidationError α :=
  match run_validation custom with
  | .error e => .error e
  | .ok _ => .ok (detect ())

/-! ## Quantification Engine: `PeakAreaDeMultiplex.divide_peaks`
(`fraggler/applications/peak_area_multiplex.py`, lines 329-334) -/

/-- Python/pandas positional slice `l[a : b]` (`DataFrame.iloc[a : b]`):
negative bounds are taken relative to the end of the sequence, then clamped
to `[0, len]`. -/
def pySlice {α : Type} (l : List α) (a b : ℤ) : List α :=
  let n : ℤ := l.length
  let lo : ℤ := if a < 0 then max (n + a) 0 else min a n
  let hi : ℤ := if b < 0 then max (n + b) 0 else min b n
  (l.take hi.toNat).drop lo.toNat

/-- Window of one peak as cut by `divide_peaks`:
`self.peaks_dataframe.iloc[x.peak_start - padding : x.peak_end + padding]`
with `padding = 4`; `peak_start`/`peak_end` are the floored/ceiled width
bounds (natural numbers). -/
def dividePeakWindow {α : Type} (peaksDataframe : List α)
    (peakStart peakEnd padding : ℕ) : List α :=
  pySlice peaksDataframe ((peakStart : ℤ) - padding) ((peakEnd : ℤ) + padding)

/-- Embedding of `PeakAreaDeMultiplex.divide_peaks`: one padded window per
peak row of the assay. -/
def divide_peaks {α : Type} (peaksDataframe : List α)
    (assay : List (ℕ × ℕ)) (padding : ℕ) : List (List α) :=
  assay.map (fun w => dividePeakWindow peaksDataframe w.1 w.2 padding)

/-! ## Peak Finder, automatic mode
(`fraggler/utils/peak_finder.py` lines 141-180 and the identical
`fraggler/applications/peak_area_multiplex.py` lines 215-254)

The calibrated trace `self.raw_data` (the adjusted basepair table: columns
`time`, `peaks`, `basepairs`) is a list of `TraceRow`.
`scipy.signal.find_peaks(x, height=h)` is embedded for signals without
equal-neighbour plateaus: index `i` is a peak iff it has a neighbour on each
side, its value strictly exceeds both neighbours, and the value is at least
`h` (scipy's height bound is inclusive).  All concrete instances below use
plateau-free signals, where this is exactly scipy's behaviour. -/

/-- One row of the adjusted basepair trace table. -/
structure TraceRow where
  time : ℕ
  peaks : ℚ
  basepairs : ℚ
deriving DecidableEq, Inhabited

/-- Indices reported by `scipy.signal.find_peaks(ys, height=h)` on a
plateau-free signal. -/
def findPeaksIdx (ys : List ℚ) (h : ℚ) : List ℕ :=
  (List.range ys.length).filter (fun i =>
    decide (0 < i) && decide (i + 1 < ys.length) &&
    decide (ys.getD (i - 1) 0 < ys.getD i 0) &&
    decide (ys.getD (i + 1) 0 < ys.getD i 0) &&
    decide (h ≤ ys.getD i 0))

/-- `peaks_dataframe`: the rows of `raw_data` with
`basepairs > search_peaks_start`. -/
def agnFiltered (raw : List TraceRow) (searchStart : ℚ) : List TraceRow :=
  raw.filter (fun r => decide (searchStart < r.basepairs))

/-- `peaks_dataframe.iloc[peaks_index].assign(peaks_index=peaks_index)`:
the detected rows, each paired with its positional index into
`peaks_dataframe`.  The `peak_name` of the row at position `k` of this list
is `k + 1`. -/
def agnDetected (raw : List TraceRow) (searchStart h : ℚ) : List (TraceRow × ℕ) :=
  let pdf := agnFiltered raw searchStart
  (findPeaksIdx (pdf.map (fun r => r.peaks)) h).map (fun i => (pdf.getD i default, i))

/-- Consecutive differences against a running previous value. -/
def diffsAux : ℚ → List ℚ → List ℚ
  | _, [] => []
  | prev, b :: rest => (b - prev) :: diffsAux b rest

/-- The `difference` column: `x.basepairs.diff()` followed by `.fillna(100)`,
so the first row gets `100` and row `i > 0` gets
`basepairs i - basepairs (i-1)`. -/
def diffsWithFill : List ℚ → List ℚ
  | [] => []
  | b :: rest => 100 :: diffsAux b rest

/-- The basepair values of the detected rows, in order. -/
def agnBasepairs (raw : List TraceRow) (searchStart h : ℚ) : List ℚ :=
  (agnDetected raw searchStart h).map (fun r => r.1.basepairs)

/-- Assay-start flags: the `np.select([difference > distance_between_assays],
[...], default=NA)` condition per detected row. -/
def agnFlags (raw : List TraceRow) (searchStart h dist : ℚ) : List Bool :=
  (diffsWithFill (agnBasepairs raw searchStart h)).map (fun d => decide (dist < d))

/-- The `assay` column after the forward fill: row `i` carries
`(j + 1) * 10` for the latest `j ≤ i` whose flag is set (`peak_name * 10`
written at assay starts, `ffill` in between), and `none` (pandas `NA`) when
no flag is set at or before `i`. -/
def agnLabels (raw : List TraceRow) (searchStart h dist : ℚ) : List (Option ℕ) :=
  let flags := agnFlags raw searchStart h dist
  (List.range flags.length).map (fun i =>
    (((List.range (i + 1)).filter (fun j => flags.getD j false)).getLast?).map
      (fun j => (j + 1) * 10))

/-- Maximum of a list of rationals (`np.max` over a nonempty group). -/
def qmax : List ℚ → ℚ
  | [] => 0
  | x :: xs => xs.foldl max x

/-- The `max_peak` value of detected row `i`:
`groupby("assay")["peaks"].transform(np.max)`, the maximum height among the
detected rows sharing row `i`'s assay label.  (Rows whose label is `NA` are
excluded from every group by pandas and receive `NaN`; such rows never pass
the ratio filter, which is modelled directly in `find_peaks_agnostic`.) -/
def groupMaxAt (raw : List TraceRow) (searchStart h dist : ℚ) (i : ℕ) : ℚ :=
  let rows := agnDetected raw searchStart h
  let labels := agnLabels raw searchStart h dist
  qmax (((List.range rows.length).filter
      (fun j => labels.getD j none = labels.getD i none)).map
    (fun j => (rows.getD j default).1.peaks))

/-- Output row of the automatic peak finder. -/
structure AgnPeak where
  time : ℕ
  peaks : ℚ
  basepairs : ℚ
  peaksIndex : ℕ
  assay : ℕ
  peakName : ℕ
deriving DecidableEq

/-- Embedding of `find_peaks_agnostic`: filter rows past the search start,
detect peaks, split into assays by basepair gap, keep rows whose
height-to-group-maximum ratio strictly exceeds `minRatio`
(`.loc[lambda x: x.ratio > min_ratio]`), and renumber `peak_name`. -/
def find_peaks_agnostic (raw : List TraceRow) (searchStart h minRatio dist : ℚ) :
    List AgnPeak :=
  let rows := agnDetected raw searchStart h
  let labels := agnLabels raw searchStart h dist
  let kept := (List.range rows.length).filterMap (fun i =>
    match labels.getD i none with
    | none => none
    | some lab =>
      let r := rows.getD i default
      if decide (minRatio < r.1.peaks / groupMaxAt raw searchStart h dist i) then
        some (r, lab)
      else none)
  kept.enum.map (fun p => ⟨p.2.1.1.time, p.2.1.1.peaks, p.2.1.1.basepairs,
    p.2.1.2, p.2.2, p.1 + 1⟩)

/-- Outcome of `PeakAreaDeMultiplex.found_peaks`: the flag plus the
downstream quantification artefacts, present only when they were computed. -/
structure FoundPeaksOutcome (α : Type) where
  flag : Bool
  downstream : Option α
deriving DecidableEq

/-- Embedding of `PeakAreaDeMultiplex.found_peaks`
(`fraggler/applications/peak_area_multiplex.py`, lines 193-213): on an empty
`peak_information` the flag is set to `False` and the method returns without
raising and without running any downstream step; otherwise the flag is set to
`True` and the downstream chain (`find_peak_widths`, `divide_peak_assays`,
`divide_peaks`), abstracted as `downstream`, runs on the found peaks. -/
def found_peaks {α : Type} (peakInformation : List AgnPeak)
    (downstream : List AgnPeak → α) : FoundPeaksOutcome α :=
  if peakInformation.length = 0 then ⟨false, none⟩
  else ⟨true, some (downstream peakInformation)⟩

/-- Concrete calibrated trace for the C7 scenario: five rows at basepairs
1..5 with intensities `[0, 100, 0, 15, 0]`. -/
def c7raw : List TraceRow :=
  [{time := 0, peaks := 0, basepairs := 1}, {time := 1, peaks := 100, basepairs := 2},
   {time := 2, peaks := 0, basepairs := 3}, {time := 3, peaks := 15, basepairs := 4},
   {time := 4, peaks := 0, basepairs := 5}]

/-! ## Quantification Engine: r-value extraction
(`fraggler/applications/peak_area_multiplex.py`, lines 416-423)

`peak_position_area_dataframe` reads the fit quality as
`float(re.findall(r"R-squared *= (0\.\d{3})", report)[0])`.  The regular
expression is embedded as a character-list matcher; `re.findall(...)[0]` is
the leftmost match, and indexing an empty match list raises `IndexError`
(modelled by `Except.error`). -/

/-- Strip an expected literal prefix. -/
def stripLit : List Char → List Char → Option (List Char)
  | [], cs => some cs
  | _ :: _, [] => none
  | l :: ls, c :: cs => if c = l then stripLit ls cs else none

/-- Consume a maximal run of spaces (the regex piece `' '*` followed by `=`,
which matches deterministically since a space never equals `=`). -/
def dropSpaces : List Char → List Char
  | [] => []
  | c :: cs => if c = ' ' then dropSpaces cs else c :: cs

/-- Attempt to match `R-squared *= (0\.\d{3})` at the head of the character
list, returning the captured group `0.` followed by three digits. -/
def rsqMatchAt (cs : List Char) : Option (List Char) := do
  let cs ← stripLit "R-squared".data cs
  let cs ← stripLit "= 0.".data (dropSpaces cs)
  match cs with
  | d1 :: d2 :: d3 :: _ =>
    if d1.isDigit && d2.isDigit && d3.isDigit then
      some ['0', '.', d1, d2, d3]
    else none
  | _ => none

/-- Leftmost match of the r-value pattern in the report
(`re.findall(...)` lists matches left to right; `[0]` takes the first). -/
def findFirstRSq : List Char → Option (List Char)
  | [] => none
  | c :: cs =>
    match rsqMatchAt (c :: cs) with
    | some v => some v
    | none => findFirstRSq cs

/-- Value of `float("0.<d1><d2><d3>")`. -/
def floatOfCapture (cs : List Char) : ℚ :=
  match cs with
  | ['0', '.', d1, d2, d3] =>
    (((d1.toNat - 48) * 100 + (d2.toNat - 48) * 10 + (d3.toNat - 48) : ℕ) : ℚ) / 1000
  | _ => 0

/-- Embedding of the r-value extraction of
`PeakAreaDeMultiplex.peak_position_area_dataframe`:
`float(re.findall(r"R-squared *= (0\.\d{3})", report)[0])`, with
`Except.error ()` modelling the `IndexError` on an empty match list. -/
def extract_r_value (report : String) : Except Unit ℚ :=
  match findFirstRSq report.data with
  | some v => .ok (floatOfCapture v)
  | none => .error ()

/-- Fit report whose R-squared line carries `0.98765`. -/
def c9hit : String := "R-squared          = 0.98765"

/-- Fit report of a perfect fit, printing `1.000`. -/
def c9perfect : String := "R-squared          = 1.000"

/-- Fit report of a negative R-squared, printing `-0.123`. -/
def c9negative : String := "R-squared          = -0.123"

/-! ## Helper lemmas -/

/-- The retry loop fails exactly when every one of its `fuel` attempts, at
knot counts `k, k+1, ...`, fails the uniqueness check. -/
theorem adjustedTraceLoop_error_iff (pred : ℕ → ℕ → ℚ) (n fuel k : ℕ) :
    adjustedTraceLoop pred n fuel k = .error () ↔
      ∀ i < fuel, basepairsAllUnique (adjusted_trace_rows (pred (k + i)) n) = false := by
  induction fuel generalizing k with
  | zero => simp [adjustedTraceLoop]
  | succ fuel ih =>
    rw [adjustedTraceLoop]
    by_cases h : basepairsAllUnique (adjusted_trace_rows (pred k) n) = true
    · simp only [h, if_true]
      constructor
      · intro hcontra; cases hcontra
      · intro hall
        have h0 := hall 0 (Nat.succ_pos fuel)
        rw [Nat.add_zero] at h0
        rw [h0] at h; cases h
    · rw [if_neg h, ih (k + 1)]
      constructor
      · intro hall i hi
        match i, hi with
        | 0, _ => simpa using Bool.eq_false_iff.mpr (fun hh => h hh)
        | i + 1, hi =>
          have := hall i (Nat.lt_of_succ_lt_succ hi)
          simpa [Nat.add_comm, Nat.add_assoc, Nat.add_left_comm] using this
      · intro hall i hi
        have := hall (i + 1) (Nat.succ_lt_succ hi)
        simpa [Nat.add_comm, Nat.add_assoc, Nat.add_left_comm] using this

/-- The retry loop succeeds exactly with the table of the first attempt that
passes the uniqueness check. -/
theorem adjustedTraceLoop_ok (pred : ℕ → ℕ → ℚ) (n fuel k : ℕ)
    (df : List (ℕ × ℚ)) (hok : adjustedTraceLoop pred n fuel k = .ok df) :
    ∃ i < fuel, basepairsAllUnique (adjusted_trace_rows (pred (k + i)) n) = true ∧
      df = adjusted_trace_rows (pred (k + i)) n := by
  induction fuel generalizing k with
  | zero => cases hok
  | succ fuel ih =>
    rw [adjustedTraceLoop] at hok
    by_cases h : basepairsAllUnique (adjusted_trace_rows (pred k) n) = true
    · rw [if_pos h] at hok
      refine ⟨0, Nat.succ_pos fuel, ?_, ?_⟩
      · simpa using h
      · cases hok; simp
    · rw [if_neg h] at hok
      obtain ⟨i, hi, hcheck, hdf⟩ := ih (k + 1) hok
      exact ⟨i + 1, Nat.succ_lt_succ hi,
        by simpa [Nat.add_comm, Nat.add_assoc, Nat.add_left_comm] using hcheck,
        by simpa [Nat.add_comm, Nat.add_assoc, Nat.add_left_comm] using hdf⟩

/-- A duplicate-free mapped column forces the mapped values of two distinct
list members to differ. -/
theorem nodup_map_pairwise {α β : Type} [DecidableEq α] {f : α → β} {l : List α}
    (hnd : (l.map f).Nodup) :
    ∀ r ∈ l, ∀ s ∈ l, r ≠ s → f r ≠ f s := by
  have hp : l.Pairwise (fun a b => f a ≠ f b) := (List.pairwise_map).mp hnd
  intro r hr s hs hne
  have hsymm : Symmetric (fun a b : α => f a ≠ f b) := by
    intro a b h hba
    exact h hba.symm
  exact hp.forall hsymm hr hs hne

/-- A list whose deduplication has full length has no duplicates. -/
theorem nodup_of_length_dedup {α : Type} [DecidableEq α] {l : List α}
    (h : l.dedup.length = l.length) : l.Nodup := by
  have hsub : l.dedup.Sublist l := List.dedup_sublist l
  have heq : l.dedup = l := hsub.eq_of_length h
  rw [← heq]
  exact l.nodup_dedup

/-! ## Claims -/

/-- C2: when the basepair column produced by the fitted calibration model is
not injective over the kept rows, the knot count is incremented and the
model refit, for at most 10 attempts in total: the run fails (with
`ModelFittingError`, producing no table) exactly when every one of the 10
attempts, at knot counts `k0, k0+1, ..., k0+9`, fails the injectivity check;
and a produced table is the table of one of those at most 10 attempts. -/
theorem claim_C2_knot_escalation (pred : ℕ → ℕ → ℚ) (n k0 : ℕ) :
    (generate_adjusted_trace_df pred n k0 = .error () ↔
      ∀ i < 10, basepairsAllUnique (adjusted_trace_rows (pred (k0 + i)) n) = false) ∧
    (∀ df, generate_adjusted_trace_df pred n k0 = .ok df →
      ∃ i < 10, basepairsAllUnique (adjusted_trace_rows (pred (k0 + i)) n) = true ∧
        df = adjusted_trace_rows (pred (k0 + i)) n) := by
  exact ⟨adjustedTraceLoop_error_iff pred n 10 k0,
    fun df h => adjustedTraceLoop_ok pred n 10 k0 df h⟩

/-- Witness for C2: a predictor that is constant in time never passes the
injectivity check on a 2-row trace and the run fails; a predictor injective
in time passes, and the produced table is that of one of the attempts. -/
theorem claim_C2_knot_escalation_witness :
    generate_adjusted_trace_df (fun _ _ => (0 : ℚ)) 2 2 = .error () ∧
    ∃ i < 10,
      basepairsAllUnique
        (adjusted_trace_rows ((fun (_ t : ℕ) => (t : ℚ)) (2 + i)) 2) = true ∧
      [(0, (0 : ℚ)), (1, 1)] =
        adjusted_trace_rows ((fun (_ t : ℕ) => (t : ℚ)) (2 + i)) 2 := by
  constructor
  · exact (claim_C2_knot_escalation (fun _ _ => (0 : ℚ)) 2 2).1.mpr (by decide)
  · exact (claim_C2_knot_escalation (fun _ t => (t : ℚ)) 2 2).2
      [(0, (0 : ℚ)), (1, 1)] (by rfl)

/-- C3: the adjusted trace table returned by a successfully frozen
calibration model has only rows with non-negative basepair values, and no
two rows with distinct time indices share a basepair value. -/
theorem claim_C3_adjusted_table_invariant (pred : ℕ → ℕ → ℚ) (n k0 : ℕ)
    (df : List (ℕ × ℚ)) (hok : generate_adjusted_trace_df pred n k0 = .ok df) :
    (∀ r ∈ df, 0 ≤ r.2) ∧ ∀ r ∈ df, ∀ s ∈ df, r.1 ≠ s.1 → r.2 ≠ s.2 := by
  obtain ⟨i, _, hcheck, hdf⟩ := adjustedTraceLoop_ok pred n 10 k0 df hok
  subst hdf
  set df := adjusted_trace_rows (pred (k0 + i)) n with hdfdef
  have hlen : df.length = (df.map Prod.snd).dedup.length :=
    of_decide_eq_true hcheck
  have hnd : (df.map Prod.snd).Nodup := by
    apply nodup_of_length_dedup
    rw [← hlen, List.length_map]
  refine ⟨?_, ?_⟩
  · intro r hr
    have hmem := List.of_mem_filter (p := fun r : ℕ × ℚ => decide (0 ≤ r.2)) hr
    simpa using hmem
  · intro r hr s hs hne1
    have := nodup_map_pairwise hnd r hr s hs
    intro heq2
    by_cases hrs : r = s
    · exact hne1 (by rw [hrs])
    · exact this hrs heq2

/-- Witness for C3: the model that maps time `t` to basepair `t` freezes at
the first attempt on a 2-row trace; both rows are non-negative and the two
distinct times carry distinct basepairs. -/
theorem claim_C3_adjusted_table_invariant_witness :
    (∀ r ∈ [(0, (0 : ℚ)), (1, 1)], 0 ≤ r.2) ∧
    ∀ r ∈ [(0, (0 : ℚ)), (1, 1)], ∀ s ∈ [(0, (0 : ℚ)), (1, 1)],
      r.1 ≠ s.1 → r.2 ≠ s.2 := by
  exact claim_C3_adjusted_table_invariant (fun _ t => (t : ℚ)) 2 2
    [(0, (0 : ℚ)), (1, 1)] (by rfl)

/-- C4: `calculate_quotient` returns 0 for a single fitted peak; for exactly
two peaks it returns `amplitude[0]/amplitude[1]` when a cutoff is configured
and the mean basepair position of the fitted windows lies strictly below it,
and `amplitude[1]/amplitude[0]` otherwise (in particular amplitudes
`[100, 50]` with no cutoff give `0.5`); for more than two peaks it returns
the last amplitude divided by the mean of all preceding amplitudes
(amplitudes `[10, 20, 15, 60]` give `4`). -/
theorem claim_C4_calculate_quotient (cutoff : Option ℚ) (meanBp : ℚ) :
    (∀ a : ℚ, calculate_quotient [a] cutoff meanBp = some 0) ∧
    (∀ a₀ a₁ c : ℚ, cutoff = some c → meanBp < c →
      calculate_quotient [a₀, a₁] cutoff meanBp = some (a₀ / a₁)) ∧
    (∀ a₀ a₁ : ℚ, (cutoff = none ∨ ∃ c, cutoff = some c ∧ c ≤ meanBp) →
      calculate_quotient [a₀, a₁] cutoff meanBp = some (a₁ / a₀)) ∧
    (∀ a₀ a₁ a₂ : ℚ, ∀ rest : List ℚ,
      calculate_quotient (a₀ :: a₁ :: a₂ :: rest) cutoff meanBp =
        some ((a₀ :: a₁ :: a₂ :: rest).getLast (by simp) /
          listMean (a₀ :: a₁ :: a₂ :: rest).dropLast)) ∧
    calculate_quotient [100, 50] none meanBp = some (1 / 2) ∧
    calculate_quotient [10, 20, 15, 60] cutoff meanBp = some 4 := by
  refine ⟨?_, ?_, ?_, ?_, ?_, ?_⟩
  · intro a; rfl
  · intro a₀ a₁ c hc hlt
    subst hc
    simp [calculate_quotient, hlt]
  · intro a₀ a₁ hcase
    rcases hcase with hnone | ⟨c, hc, hge⟩
    · subst hnone; rfl
    · subst hc
      simp [calculate_quotient, not_lt.mpr hge]
  · intro a₀ a₁ a₂ rest; rfl
  · simp [calculate_quotient]; norm_num
  · have : calculate_quotient [10, 20, 15, 60] cutoff meanBp =
        some ((60 : ℚ) / listMean [10, 20, 15]) := rfl
    rw [this, listMean]
    norm_num

/-- Witness for C4: with a configured cutoff of 5, a below-cutoff assay with
amplitudes 100 and 50 gives `100/50`, an at-or-above-cutoff one gives
`50/100`, and a one-peak assay gives 0. -/
theorem claim_C4_calculate_quotient_witness :
    calculate_quotient [100, 50] (some 5) 3 = some (100 / 50) ∧
    calculate_quotient [100, 50] (some 5) 7 = some (50 / 100) ∧
    calculate_quotient [42] (some 5) 3 = some 0 := by
  refine ⟨?_, ?_, ?_⟩
  · exact (claim_C4_calculate_quotient (some 5) 3).2.1 100 50 5 rfl (by norm_num)
  · exact (claim_C4_calculate_quotient (some 5) 7).2.2.1 100 50
      (Or.inr ⟨5, rfl, by norm_num⟩)
  · exact (claim_C4_calculate_quotient (some 5) 3).1 42

/-- An edge of the peak graph goes from a smaller to a larger time index. -/
theorem edgeB_lt {maxDist a b : ℕ} (h : edgeB maxDist a b = true) : a < b := by
  have := (Bool.and_eq_true _ _).mp h
  exact of_decide_eq_true this.1

/-- Every path the depth-first enumeration produces starts at its source and
follows graph edges. -/
theorem pathsFrom_chain (peaks : List ℕ) (maxDist : ℕ) (fuel a : ℕ) :
    ∀ p ∈ pathsFrom peaks maxDist fuel a,
      p.head? = some a ∧ p.Chain' (fun x y => edgeB maxDist x y = true) := by
  induction fuel generalizing a with
  | zero =>
    intro p hp
    rw [pathsFrom] at hp
    simp only [List.mem_singleton] at hp
    subst hp
    exact ⟨rfl, List.chain'_singleton a⟩
  | succ fuel ih =>
    intro p hp
    rw [pathsFrom] at hp
    rcases List.mem_cons.mp hp with h1 | h2
    · subst h1
      exact ⟨rfl, List.chain'_singleton a⟩
    · obtain ⟨b, hb, q, hq, hpq⟩ := by
        simpa only [List.mem_flatMap, List.mem_map] using h2
      subst hpq
      obtain ⟨hhead, hchain⟩ := ih b q hq
      have hedge : edgeB maxDist a b = true := List.of_mem_filter hb
      refine ⟨rfl, ?_⟩
      cases q with
      | nil => exact List.chain'_singleton a
      | cons x xs =>
        have hx : x = b := by simpa using hhead
        subst hx
        exact List.Chain'.cons hedge hchain

/-- Every enumerated ladder path is strictly increasing. -/
theorem allLadderPaths_sorted (peaks : List ℕ) (maxDist : ℕ) :
    ∀ p ∈ allLadderPaths peaks maxDist, p.Pairwise (· < ·) := by
  intro p hp
  rw [allLadderPaths] at hp
  simp only [List.mem_flatMap, List.mem_filter] at hp
  obtain ⟨s, _, e, _, hpmem, _⟩ := hp
  have hchain := (pathsFrom_chain peaks maxDist peaks.length s p hpmem).2
  have hlt : p.Chain' (· < ·) := hchain.imp (fun _ _ h => edgeB_lt h)
  exact List.chain'_iff_pairwise.mp hlt

/-- Every window the combination generator yields has exactly `refCount`
nodes and is a contiguous slice of its path. -/
theorem pathWindows_shape (refCount : ℕ) (p c : List ℕ)
    (hc : c ∈ pathWindows refCount p) :
    c.length = refCount ∧ ∃ i, c = (p.drop i).take refCount := by
  rw [pathWindows] at hc
  by_cases hle : refCount ≤ p.length
  · rw [if_pos hle] at hc
    simp only [List.mem_map, List.mem_range] at hc
    obtain ⟨i, hi, hci⟩ := hc
    subst hci
    refine ⟨?_, i, rfl⟩
    have hibound : i + refCount ≤ p.length := by omega
    simp only [List.length_take, List.length_drop]
    omega
  · rw [if_neg hle] at hc
    cases hc

/-- The stable argmin of `get_best_fit` is one of the scored combinations. -/
theorem bestOf_mem (score : List ℕ → ℚ) (c : List ℕ) (cs : List (List ℕ)) :
    bestOf score c cs ∈ c :: cs := by
  induction cs generalizing c with
  | nil => simp [bestOf]
  | cons d ds ih =>
    have hstep : bestOf score c (d :: ds) =
        bestOf score (if score d < score c then d else c) ds := by
      simp [bestOf]
    rw [hstep]
    by_cases hlt : score d < score c
    · rw [if_pos hlt]
      rcases List.mem_cons.mp (ih d) with h1 | h2
      · exact List.mem_cons.mpr (Or.inr (List.mem_cons.mpr (Or.inl h1)))
      · exact List.mem_cons.mpr (Or.inr (List.mem_cons.mpr (Or.inr h2)))
    · rw [if_neg hlt]
      rcases List.mem_cons.mp (ih c) with h1 | h2
      · exact List.mem_cons.mpr (Or.inl h1)
      · exact List.mem_cons.mpr (Or.inr (List.mem_cons.mpr (Or.inr h2)))

/-- C1: every combination returned without error by
`assign_ladder_peak_sizes` consists of exactly `refCount` time indices in
strictly increasing order — each candidate is a length-`refCount` window of
a path in a graph whose edges go only from smaller to larger time index. -/
theorem claim_C1_assignment_cardinality (peaks : List ℕ) (maxDist refCount : ℕ)
    (score : List ℕ → ℚ) (c : List ℕ)
    (hok : assign_ladder_peak_sizes peaks maxDist refCount score = .ok c) :
    c.length = refCount ∧ c.Chain' (· < ·) := by
  rw [assign_ladder_peak_sizes] at hok
  rcases hgen : generate_combinations peaks maxDist refCount with e | combs
  · rw [hgen] at hok; cases hok
  · rw [hgen] at hok
    rcases combs with _ | ⟨c₀, cs⟩
    · cases hok
    · have hc : c = bestOf score c₀ cs := by
        simp only [get_best_fit, Except.ok.injEq] at hok
        exact hok.symm
      have hmem : c ∈ c₀ :: cs := hc ▸ bestOf_mem score c₀ cs
      -- the combination list is the concatenation of all path windows
      rw [generate_combinations] at hgen
      by_cases hse : (startNodes peaks maxDist).isEmpty ||
          (endNodes peaks maxDist).isEmpty
      · rw [if_pos hse] at hgen; cases hgen
      · rw [if_neg hse] at hgen
        by_cases hap : (allLadderPaths peaks maxDist).isEmpty
        · rw [if_pos hap] at hgen; cases hgen
        · rw [if_neg hap] at hgen
          have hcombs : c₀ :: cs =
              (allLadderPaths peaks maxDist).flatMap (pathWindows refCount) := by
            injection hgen with h
            exact h.symm
          have hcmem : c ∈ (allLadderPaths peaks maxDist).flatMap
              (pathWindows refCount) := hcombs ▸ hmem
          obtain ⟨p, hpmem, hcw⟩ := List.mem_flatMap.mp hcmem
          obtain ⟨hlen, i, hslice⟩ := pathWindows_shape refCount p c hcw
          refine ⟨hlen, ?_⟩
          have hsorted := allLadderPaths_sorted peaks maxDist p hpmem
          have hsub : c.Sublist p := by
            rw [hslice]
            exact ((p.drop i).take_sublist refCount).trans (p.drop_sublist i)
          exact List.chain'_iff_pairwise.mpr (hsorted.sublist hsub)

/-- Witness for C1: on the sorted candidate peaks `[0, 10, 20]` with maximal
ladder trace distance 15 and `ref_count = 2`, the assigner succeeds and the
returned combination has exactly 2 strictly increasing time indices. -/
theorem claim_C1_assignment_cardinality_witness :
    ([0, 10] : List ℕ).length = 2 ∧ ([0, 10] : List ℕ).Chain' (· < ·) :=
  claim_C1_assignment_cardinality [0, 10, 20] 15 2 (fun _ => 0) [0, 10] (by rfl)

/-- A flattened list of lists is empty exactly when each piece is empty. -/
theorem flatMap_eq_nil_iff_forall {α β : Type} (l : List α) (f : α → List β) :
    l.flatMap f = [] ↔ ∀ a ∈ l, f a = [] := by
  induction l with
  | nil => simp
  | cons x xs ih => simp [ih]

/-- C5: the ladder search terminates with an error (each of its raises is a
Python `ValueError`; the spec's name for the failure kind is
`NoCombinationError`) rather than returning a combination exactly when the
peak graph has no zero-in-degree node or no zero-out-degree node, or when no
enumerated simple path yields a contiguous window of exactly `refCount`
nodes. -/
theorem claim_C5_no_combination_error (peaks : List ℕ) (maxDist refCount : ℕ)
    (score : List ℕ → ℚ) :
    (∃ e, assign_ladder_peak_sizes peaks maxDist refCount score = .error e) ↔
      (startNodes peaks maxDist = [] ∨ endNodes peaks maxDist = [] ∨
        ∀ p ∈ allLadderPaths peaks maxDist, pathWindows refCount p = []) := by
  by_cases hse : ((startNodes peaks maxDist).isEmpty ||
      (endNodes peaks maxDist).isEmpty) = true
  · have hgen : generate_combinations peaks maxDist refCount =
        .error .noStartOrEnd := by
      rw [generate_combinations, if_pos hse]
    have hassign : assign_ladder_peak_sizes peaks maxDist refCount score =
        .error .noStartOrEnd := by
      unfold assign_ladder_peak_sizes
      rw [hgen]
    refine iff_of_true ⟨.noStartOrEnd, hassign⟩ ?_
    rcases Bool.or_eq_true _ _ |>.mp hse with h | h
    · exact Or.inl (List.isEmpty_iff.mp h)
    · exact Or.inr (Or.inl (List.isEmpty_iff.mp h))
  · by_cases hap : (allLadderPaths peaks maxDist).isEmpty = true
    · have hgen : generate_combinations peaks maxDist refCount = .error .noPaths := by
        rw [generate_combinations, if_neg hse]
        simp only [allLadderPaths] at hap ⊢
        rw [if_pos hap]
      have hassign : assign_ladder_peak_sizes peaks maxDist refCount score =
          .error .noPaths := by
        unfold assign_ladder_peak_sizes
        rw [hgen]
      refine iff_of_true ⟨.noPaths, hassign⟩ ?_
      refine Or.inr (Or.inr ?_)
      intro p hp
      rw [List.isEmpty_iff.mp hap] at hp
      cases hp
    · have hgen : generate_combinations peaks maxDist refCount =
          .ok ((allLadderPaths peaks maxDist).flatMap (pathWindows refCount)) := by
        rw [generate_combinations, if_neg hse]
        simp only [allLadderPaths] at hap ⊢
        rw [if_neg hap]
      by_cases hflat :
          (allLadderPaths peaks maxDist).flatMap (pathWindows refCount) = []
      · have hassign : assign_ladder_peak_sizes peaks maxDist refCount score =
            .error .emptyCombinations := by
          unfold assign_ladder_peak_sizes
          rw [hgen, hflat]
          rfl
        refine iff_of_true ⟨.emptyCombinations, hassign⟩ ?_
        exact Or.inr (Or.inr ((flatMap_eq_nil_iff_forall _ _).mp hflat))
      · obtain ⟨c₀, cs, hcons⟩ := List.exists_cons_of_ne_nil hflat
        have hassign : assign_ladder_peak_sizes peaks maxDist refCount score =
            .ok (bestOf score c₀ cs) := by
          unfold assign_ladder_peak_sizes
          rw [hgen, hcons]
          rfl
        refine iff_of_false ?_ ?_
        · rintro ⟨e, he⟩
          rw [hassign] at he
          cases he
        · rintro (h | h | h)
          · exact hse (by simp [h])
          · exact hse (by simp [h])
          · exact hflat ((flatMap_eq_nil_iff_forall _ _).mpr h)

/-- A list with a duplicate strictly shrinks under deduplication. -/
theorem dedup_length_lt_of_not_nodup {α : Type} [DecidableEq α] {l : List α}
    (h : ¬ l.Nodup) : l.dedup.length < l.length := by
  have hsub := List.dedup_sublist l
  rcases lt_or_eq_of_le hsub.length_le with hlt | heq
  · exact hlt
  · have heql : l.dedup = l := hsub.eq_of_length heq
    exact absurd (heql ▸ l.nodup_dedup) h

/-- An element of a list in positional range. -/
theorem getD_mem_of_lt {α : Type} {l : List α} {i : ℕ} (d : α) (h : i < l.length) :
    l.getD i d ∈ l := by
  rw [List.getD_eq_getElem l d h]
  exact List.getElem_mem h

/-- A member of a row's interval appears among the non-null exploded values
of any table containing that row. -/
theorem mem_exploded_of_mem_interval {rows : List (ℤ × ℤ)} {r : ℤ × ℤ}
    (hr : r ∈ rows) {v : ℤ} (hv : v ∈ intervalMembers r.1 r.2) :
    v ∈ (explodedIntervals rows).filterMap id := by
  apply List.mem_filterMap.mpr
  refine ⟨some v, ?_, rfl⟩
  apply List.mem_flatMap.mpr
  refine ⟨r, hr, ?_⟩
  rw [explodedRow]
  rcases hcase : intervalMembers r.1 r.2 with _ | ⟨x, xs⟩
  · rw [hcase] at hv; cases hv
  · rw [hcase] at hv
    exact List.mem_map_of_mem some hv

/-- Two overlapping windows at distinct row positions force a duplicate
among the non-null exploded interval values. -/
theorem exploded_dup_of_overlap {rows : List (ℤ × ℤ)} {i j : ℕ} {v : ℤ}
    (hij : i < j) (hj : j < rows.length)
    (hvi : v ∈ intervalMembers (rows.getD i (0, 0)).1 (rows.getD i (0, 0)).2)
    (hvj : v ∈ intervalMembers (rows.getD j (0, 0)).1 (rows.getD j (0, 0)).2) :
    ¬ ((explodedIntervals rows).filterMap id).Nodup := by
  induction rows generalizing i j with
  | nil => simp at hj
  | cons r rest ih =>
    intro hnd
    have hexp : explodedIntervals (r :: rest) =
        explodedRow r ++ explodedIntervals rest := by
      simp [explodedIntervals]
    rw [hexp, List.filterMap_append] at hnd
    cases i with
    | zero =>
      cases j with
      | zero => omega
      | succ j2 =>
        have hvleft : v ∈ (explodedRow r).filterMap id := by
          simp only [List.getD_cons_zero] at hvi
          apply List.mem_filterMap.mpr
          refine ⟨some v, ?_, rfl⟩
          rw [explodedRow]
          rcases hcase : intervalMembers r.1 r.2 with _ | ⟨x, xs⟩
          · rw [hcase] at hvi; cases hvi
          · rw [hcase] at hvi
            exact List.mem_map_of_mem some hvi
        have hj2 : j2 < rest.length := by simpa using hj
        have hvright : v ∈ (explodedIntervals rest).filterMap id := by
          apply mem_exploded_of_mem_interval (getD_mem_of_lt (0, 0) hj2)
          simpa only [List.getD_cons_succ] using hvj
        exact (List.nodup_append.mp hnd).2.2 hvleft hvright
    | succ i2 =>
      cases j with
      | zero => omega
      | succ j2 =>
        refine ih (Nat.lt_of_succ_lt_succ hij) (by simpa using hj) ?_ ?_
          (List.nodup_append.mp hnd).2.1
        · simpa only [List.getD_cons_succ] using hvi
        · simpa only [List.getD_cons_succ] using hvj

/-- A filtered list that keeps its full length satisfies the predicate
everywhere. -/
theorem all_of_length_filter {α : Type} {p : α → Bool} {l : List α}
    (h : (l.filter p).length = l.length) : ∀ a ∈ l, p a = true := by
  induction l with
  | nil => intro a ha; cases ha
  | cons x xs ih =>
    intro a ha
    by_cases hx : p x = true
    · rw [List.filter_cons_of_pos hx] at h
      rcases List.mem_cons.mp ha with h1 | h2
      · rw [h1]; exact hx
      · exact ih (by simpa using h) a h2
    · rw [List.filter_cons_of_neg (by simpa using hx)] at h
      have := List.length_filter_le p xs
      simp at h
      omega

/-- `has_columns` accepts exactly the tables whose column set is the
required one. -/
theorem has_columns_iff (t : CustomTable) :
    has_columns t = true ↔ (∀ c, c ∈ t.columns ↔ c ∈ requiredColumns) := by
  constructor
  · intro h
    rw [has_columns] at h
    by_cases h1 : requiredColumns.length = t.columns.dedup.length
    · rw [if_neg (by omega)] at h
      by_cases h2 : (t.columns.dedup.filter
          (fun c => requiredColumns.contains c)).length = t.columns.dedup.length
      · have hall := all_of_length_filter h2
        have hsubset : t.columns.dedup ⊆ requiredColumns := by
          intro c hc
          have := hall c hc
          simpa using this
        have hperm : t.columns.dedup.Perm requiredColumns := by
          apply List.Subperm.perm_of_length_le
          · exact (t.columns.nodup_dedup).subperm hsubset
          · omega
        intro c
        constructor
        · intro hc
          exact hperm.mem_iff.mp (List.mem_dedup.mpr hc)
        · intro hc
          exact List.mem_dedup.mp (hperm.mem_iff.mpr hc)
      · rw [if_pos (by omega)] at h
        cases h
    · rw [if_pos (by omega)] at h
      cases h
  · intro hset
    have hperm : t.columns.dedup.Perm requiredColumns := by
      have hnd1 : t.columns.dedup.Nodup := t.columns.nodup_dedup
      have hnd2 : requiredColumns.Nodup := by decide
      apply List.perm_of_nodup_nodup_toFinset_eq hnd1 hnd2
      ext c
      simp only [List.mem_toFinset, List.mem_dedup]
      exact hset c
    rw [has_columns]
    have hlen : t.columns.dedup.length = requiredColumns.length := hperm.length_eq
    rw [if_neg (by omega)]
    have hfilter : t.columns.dedup.filter (fun c => requiredColumns.contains c) =
        t.columns.dedup := by
      apply List.filter_eq_self.mpr
      intro c hc
      have : c ∈ requiredColumns := (hset c).mp (List.mem_dedup.mp hc)
      simpa using this
    rw [if_neg (by rw [hfilter]; omega)]

/-- C6 counterexample: a custom table consisting of the single column `name`
has a column set different from the required one, yet `run_validation`
rejects it with the pandas `KeyError` arising inside the overlap check
(which runs first and sorts by the absent `start` column), not with
`WrongColumnsError` as the claim states. -/
theorem claim_C6_counterexample :
    (¬ ∀ c, c ∈ (CustomTable.mk ["name"] []).columns ↔ c ∈ requiredColumns) ∧
    run_validation (some (CustomTable.mk ["name"] [])) = .error .keyError ∧
    ValidationError.keyError ≠ ValidationError.wrongColumns := by
  refine ⟨?_, rfl, by decide⟩
  intro hall
  have := (hall "start").mpr (by decide)
  simp at this

/-- C6 (amended): validation runs before any peak detection, with the
overlap check first.  A table with `start` and `stop` columns two of whose
windows' half-open `[start, stop)` ranges overlap is rejected with
`OverlappingIntervalError`.  A table that passes the overlap check and whose
column set is not exactly
`{name, start, stop, amount, min_ratio, which, peak_distance}` is rejected
with `WrongColumnsError`.  However, a table lacking the `start` column is
rejected inside the overlap check with a pandas `KeyError`, not with
`WrongColumnsError` (see the counterexample).  In every rejection the error
propagates and no peak detection runs. -/
theorem claim_C6_amended_validation (t : CustomTable) (α : Type)
    (detect : Unit → α) :
    (∀ i j v, i < j → j < t.rows.length →
      t.columns.contains "start" = true → t.columns.contains "stop" = true →
      v ∈ intervalMembers (t.rows.getD i (0, 0)).1 (t.rows.getD i (0, 0)).2 →
      v ∈ intervalMembers (t.rows.getD j (0, 0)).1 (t.rows.getD j (0, 0)).2 →
      run_validation (some t) = .error .overlappingInterval) ∧
    (is_overlapping t = .ok false →
      (¬ ∀ c, c ∈ t.columns ↔ c ∈ requiredColumns) →
      run_validation (some t) = .error .wrongColumns) ∧
    (t.columns.contains "start" = false →
      run_validation (some t) = .error .keyError) ∧
    (∀ e, run_validation (some t) = .error e →
      peakFinderInit (some t) detect = .error e) := by
  refine ⟨?_, ?_, ?_, ?_⟩
  · intro i j v hij hj hstart hstop hvi hvj
    have hover : is_overlapping t = .ok true := by
      rw [is_overlapping]
      rw [if_neg (by rw [hstart]; simp), if_neg (by rw [hstop]; simp)]
      have hdup := exploded_dup_of_overlap hij hj hvi hvj
      have hlt := dedup_length_lt_of_not_nodup hdup
      have hle := List.length_filterMap_le id (explodedIntervals t.rows)
      simp only [Except.ok.injEq]
      rw [decide_eq_true_eq]
      omega
    rw [run_validation, hover]
  · intro hok hcols
    have hcolsF : has_columns t = false := by
      rcases Bool.eq_false_or_eq_true (has_columns t) with h | h
      · exact absurd ((has_columns_iff t).mp h) hcols
      · exact h
    rw [run_validation, hok, if_pos hcolsF]
  · intro hstart
    have hover : is_overlapping t = .error .keyError := by
      rw [is_overlapping, if_pos hstart]
    rw [run_validation, hover]
  · intro e he
    rw [peakFinderInit, he]

/-- Witness for C6 (amended): the overlapping two-window table
`[0,5), [3,8)` is rejected with `OverlappingIntervalError`; the
non-overlapping table with an extra column is rejected with
`WrongColumnsError`, as is the zero-row table lacking only the `stop`
column (its overlap check runs no row and returns `False`); the table
lacking the `start` column is rejected with the pandas `KeyError`; and
`peakFinderInit` propagates the error so no detection output exists. -/
theorem claim_C6_amended_validation_witness :
    run_validation (some (CustomTable.mk
      ["name", "start", "stop", "amount", "min_ratio", "which", "peak_distance"]
      [(0, 5), (3, 8)])) = .error .overlappingInterval ∧
    run_validation (some (CustomTable.mk
      ["name", "start", "stop", "amount", "min_ratio", "which", "peak_distance",
        "extra"]
      [(0, 5), (10, 15)])) = .error .wrongColumns ∧
    run_validation (some (CustomTable.mk
      ["name", "start", "amount", "min_ratio", "which", "peak_distance"]
      [])) = .error .wrongColumns ∧
    run_validation (some (CustomTable.mk ["name"] [])) = .error .keyError ∧
    peakFinderInit (some (CustomTable.mk
      ["name", "start", "stop", "amount", "min_ratio", "which", "peak_distance",
        "extra"]
      [(0, 5), (10, 15)])) (fun _ => (0 : ℕ)) = .error .wrongColumns := by
  have h1 := (claim_C6_amended_validation (CustomTable.mk
      ["name", "start", "stop", "amount", "min_ratio", "which", "peak_distance"]
      [(0, 5), (3, 8)]) ℕ (fun _ => 0)).1 0 1 4 (by decide) (by decide)
      (by decide) (by decide) (by decide) (by decide)
  have h2 := (claim_C6_amended_validation (CustomTable.mk
      ["name", "start", "stop", "amount", "min_ratio", "which", "peak_distance",
        "extra"]
      [(0, 5), (10, 15)]) ℕ (fun _ => 0)).2.1 (by rfl) (by
    intro hall
    have := (hall "extra").mp (by decide)
    simp [requiredColumns] at this)
  have h2b := (claim_C6_amended_validation (CustomTable.mk
      ["name", "start", "amount", "min_ratio", "which", "peak_distance"]
      []) ℕ (fun _ => 0)).2.1 (by rfl) (by
    intro hall
    have := (hall "stop").mpr (by decide)
    simp at this)
  have h2c := (claim_C6_amended_validation (CustomTable.mk ["name"] [])
      ℕ (fun _ => 0)).2.2.1 (by decide)
  have h3 := (claim_C6_amended_validation (CustomTable.mk
      ["name", "start", "stop", "amount", "min_ratio", "which", "peak_distance",
        "extra"]
      [(0, 5), (10, 15)]) ℕ (fun _ => 0)).2.2.2 .wrongColumns h2
  exact ⟨h1, h2, h2b, h2c, h3⟩

/-- The positional index of an enumerated pair is paired with a list
member. -/
theorem snd_mem_of_mem_enumFrom {α : Type} {l : List α} {n : ℕ} {p : ℕ × α}
    (h : p ∈ l.enumFrom n) : p.2 ∈ l := by
  induction l generalizing n with
  | nil => cases h
  | cons x xs ih =>
    rcases List.mem_cons.mp h with h1 | h2
    · rw [h1]; exact List.mem_cons_self x xs
    · exact List.mem_cons.mpr (Or.inr (ih h2))

/-- The fold of `max` only grows its seed. -/
theorem le_foldl_max (l : List ℚ) (a : ℚ) : a ≤ l.foldl max a := by
  induction l generalizing a with
  | nil => exact le_refl a
  | cons x xs ih => exact le_trans (le_max_left a x) (ih (max a x))

/-- Every list member is bounded by the `max` fold. -/
theorem mem_le_foldl_max {l : List ℚ} {x : ℚ} (hx : x ∈ l) (a : ℚ) :
    x ≤ l.foldl max a := by
  induction l generalizing a with
  | nil => cases hx
  | cons y ys ih =>
    rcases List.mem_cons.mp hx with h1 | h2
    · subst h1
      exact le_trans (le_max_right a x) (le_foldl_max ys (max a x))
    · exact ih h2 (max a y)

/-- Every member of a nonempty list is bounded by its `qmax`. -/
theorem qmax_ge_mem {l : List ℚ} {x : ℚ} (hx : x ∈ l) : x ≤ qmax l := by
  cases l with
  | nil => cases hx
  | cons y ys =>
    rw [qmax]
    rcases List.mem_cons.mp hx with h1 | h2
    · subst h1; exact le_foldl_max ys x
    · exact mem_le_foldl_max h2 y

/-- Every detected row of the automatic mode lies in the filtered trace and
reaches the height threshold. -/
theorem agnDetected_mem {raw : List TraceRow} {searchStart h : ℚ}
    {x : TraceRow × ℕ} (hx : x ∈ agnDetected raw searchStart h) :
    x.1 ∈ agnFiltered raw searchStart ∧ h ≤ x.1.peaks := by
  rw [agnDetected] at hx
  obtain ⟨i, hi, hxi⟩ := List.mem_map.mp hx
  rw [findPeaksIdx] at hi
  have hmem := List.mem_filter.mp hi
  have hrange := List.mem_range.mp hmem.1
  have hpred := hmem.2
  simp only [Bool.and_eq_true, decide_eq_true_eq] at hpred
  obtain ⟨⟨⟨⟨hp1, hp2⟩, hp3⟩, hp4⟩, hp5⟩ := hpred
  have hlen : i < (agnFiltered raw searchStart).length := by
    have : i + 1 < (agnFiltered raw searchStart).length := by simpa using hp2
    omega
  subst hxi
  constructor
  · exact getD_mem_of_lt default hlen
  · have hgetd : ((agnFiltered raw searchStart).map (fun r => r.peaks)).getD i 0 =
        ((agnFiltered raw searchStart).getD i default).peaks := by
      rw [List.getD_eq_getElem _ _ (by simpa using hlen),
        List.getD_eq_getElem _ _ hlen, List.getElem_map]
    rw [hgetd] at hp5
    exact hp5

/-- `diffsAux` has the length of its input. -/
theorem diffsAux_length (prev : ℚ) (l : List ℚ) :
    (diffsAux prev l).length = l.length := by
  induction l generalizing prev with
  | nil => rfl
  | cons b rest ih => simp [diffsAux, ih]

/-- The filled difference column has one entry per input value. -/
theorem diffsWithFill_length (l : List ℚ) : (diffsWithFill l).length = l.length := by
  cases l with
  | nil => rfl
  | cons b rest => simp [diffsWithFill, diffsAux_length]

/-- Positional value of `diffsAux`. -/
theorem diffsAux_getD (l : List ℚ) (prev : ℚ) (i : ℕ) (hi : i < l.length) :
    (diffsAux prev l).getD i 0 =
      l.getD i 0 - (if i = 0 then prev else l.getD (i - 1) 0) := by
  induction l generalizing prev i with
  | nil => cases hi
  | cons b rest ih =>
    cases i with
    | zero => simp [diffsAux]
    | succ j =>
      rw [diffsAux]
      have hj : j < rest.length := by simpa using hi
      simp only [List.getD_cons_succ]
      rw [ih b j hj]
      cases j with
      | zero => simp
      | succ k => simp

/-- For `i ≥ 1` the difference column holds the basepair gap to the
previous row. -/
theorem diffsWithFill_getD (bps : List ℚ) (i : ℕ) (hi : i + 1 < bps.length) :
    (diffsWithFill bps).getD (i + 1) 0 = bps.getD (i + 1) 0 - bps.getD i 0 := by
  cases bps with
  | nil => cases hi
  | cons b rest =>
    rw [diffsWithFill]
    have hi2 : i < rest.length := by simpa using hi
    simp only [List.getD_cons_succ]
    rw [diffsAux_getD rest b i hi2]
    cases i with
    | zero => simp
    | succ k => simp

/-- `getD` commutes with `map` at an in-range position. -/
theorem getD_map_pos {α β : Type} {l : List α} {f : α → β} {i : ℕ}
    (hi : i < l.length) (d : β) (d0 : α) :
    (l.map f).getD i d = f (l.getD i d0) := by
  induction l generalizing i with
  | nil => cases hi
  | cons x xs ih =>
    cases i with
    | zero => rfl
    | succ j =>
      simp only [List.map_cons, List.getD_cons_succ]
      exact ih (by simpa using hi)

/-- The assay-start flag of row `i ≥ 1` holds exactly when the basepair gap
to the previous detected row strictly exceeds the assay distance. -/
theorem agnFlags_getD (raw : List TraceRow) (searchStart h dist : ℚ) (i : ℕ)
    (hi : i + 1 < (agnBasepairs raw searchStart h).length) :
    (agnFlags raw searchStart h dist).getD (i + 1) false =
      decide (dist < (agnBasepairs raw searchStart h).getD (i + 1) 0 -
        (agnBasepairs raw searchStart h).getD i 0) := by
  have hlen : i + 1 < (diffsWithFill (agnBasepairs raw searchStart h)).length := by
    rw [diffsWithFill_length]; exact hi
  rw [agnFlags, getD_map_pos hlen false 0, diffsWithFill_getD _ i hi]

/-- Flag and label columns have one entry per detected row. -/
theorem agnLabels_length (raw : List TraceRow) (searchStart h dist : ℚ) :
    (agnLabels raw searchStart h dist).length =
      (agnFlags raw searchStart h dist).length := by
  simp [agnLabels]

/-- Positional value of the label column: the forward-filled assay id of the
latest flagged row at or before `i`. -/
theorem agnLabels_getD (raw : List TraceRow) (searchStart h dist : ℚ) (i : ℕ)
    (hi : i < (agnFlags raw searchStart h dist).length) :
    (agnLabels raw searchStart h dist).getD i none =
      (((List.range (i + 1)).filter
        (fun j => (agnFlags raw searchStart h dist).getD j false)).getLast?).map
        (fun j => (j + 1) * 10) := by
  rw [agnLabels]
  have hlen : i < (List.range (agnFlags raw searchStart h dist).length).length := by
    simpa using hi
  rw [List.getD_eq_getElem _ _ (by simpa using hi), List.getElem_map,
    List.getElem_range]

/-- Flag and basepair columns are equally long. -/
theorem agnFlags_length (raw : List TraceRow) (searchStart h dist : ℚ) :
    (agnFlags raw searchStart h dist).length =
      (agnBasepairs raw searchStart h).length := by
  rw [agnFlags, List.length_map, diffsWithFill_length]

/-- A flagged row starts an assay labelled with its own peak number. -/
theorem agnLabels_flag_true (raw : List TraceRow) (searchStart h dist : ℚ) (i : ℕ)
    (hi : i < (agnFlags raw searchStart h dist).length)
    (hf : (agnFlags raw searchStart h dist).getD i false = true) :
    (agnLabels raw searchStart h dist).getD i none = some ((i + 1) * 10) := by
  rw [agnLabels_getD raw searchStart h dist i hi]
  have hsplit : (List.range (i + 1)).filter
      (fun j => (agnFlags raw searchStart h dist).getD j false) =
      (List.range i).filter
        (fun j => (agnFlags raw searchStart h dist).getD j false) ++ [i] := by
    rw [List.range_succ, List.filter_append]
    simp only [List.filter_singleton, hf, cond_true]
  rw [hsplit, List.getLast?_concat]
  rfl

/-- An unflagged row inherits the previous row's assay label. -/
theorem agnLabels_flag_false (raw : List TraceRow) (searchStart h dist : ℚ) (i : ℕ)
    (hi : i + 1 < (agnFlags raw searchStart h dist).length)
    (hf : (agnFlags raw searchStart h dist).getD (i + 1) false = false) :
    (agnLabels raw searchStart h dist).getD (i + 1) none =
      (agnLabels raw searchStart h dist).getD i none := by
  rw [agnLabels_getD raw searchStart h dist (i + 1) hi,
    agnLabels_getD raw searchStart h dist i (by omega)]
  have hsplit : (List.range (i + 2)).filter
      (fun j => (agnFlags raw searchStart h dist).getD j false) =
      (List.range (i + 1)).filter
        (fun j => (agnFlags raw searchStart h dist).getD j false) := by
    rw [List.range_succ, List.filter_append]
    simp only [List.filter_singleton, hf, cond_false, List.append_nil]
  rw [hsplit]

/-- Any assigned assay label records a row position at or before its row. -/
theorem agnLabels_bound (raw : List TraceRow) (searchStart h dist : ℚ) (i : ℕ)
    (hi : i < (agnFlags raw searchStart h dist).length) {lab : ℕ}
    (hlab : (agnLabels raw searchStart h dist).getD i none = some lab) :
    ∃ j, j ≤ i ∧ lab = (j + 1) * 10 := by
  rw [agnLabels_getD raw searchStart h dist i hi] at hlab
  obtain ⟨j, hj, hjlab⟩ := Option.map_eq_some'.mp hlab
  refine ⟨j, ?_, hjlab.symm⟩
  obtain ⟨hne, heq⟩ := List.mem_getLast?_eq_getLast (by rw [hj]; rfl)
  have hjmem : j ∈ (List.range (i + 1)).filter
      (fun k => (agnFlags raw searchStart h dist).getD k false) := by
    rw [heq]; exact List.getLast_mem hne
  have := List.mem_range.mp (List.mem_filter.mp hjmem).1
  omega

/-- Members of the positional enumeration project to list members. -/
theorem snd_mem_of_mem_enum {α : Type} {l : List α} {p : ℕ × α}
    (h : p ∈ l.enum) : p.2 ∈ l := by
  have henum : l.enum = l.enumFrom 0 := rfl
  rw [henum] at h
  exact snd_mem_of_mem_enumFrom h

/-- The group maximum of a labelled detected row is at least the height
threshold. -/
theorem groupMaxAt_ge (raw : List TraceRow) (searchStart h dist : ℚ) (i : ℕ)
    (hi : i < (agnDetected raw searchStart h).length) :
    ((agnDetected raw searchStart h).getD i default).1.peaks ≤
      groupMaxAt raw searchStart h dist i := by
  rw [groupMaxAt]
  apply qmax_ge_mem
  apply List.mem_map_of_mem
  apply List.mem_filter.mpr
  exact ⟨List.mem_range.mpr hi, by simp⟩

/-- C7 counterexample: with `min_ratio = 15/100`, the assay detected on
`c7raw` has tallest peak 100 and a second peak of height 15, which sits
exactly at `min_ratio` times the group maximum (`15 = (15/100) * 100`).
The claim says peaks at that fraction are retained; the code's strict
ratio filter (`x.ratio > min_ratio`) drops it, leaving only the tallest
peak. -/
theorem claim_C7_counterexample :
    agnLabels c7raw 0 10 50 = [some 10, some 10] ∧
    groupMaxAt c7raw 0 10 50 1 = 100 ∧
    ((agnDetected c7raw 0 10).getD 1 default).1.peaks = (15 / 100) * 100 ∧
    find_peaks_agnostic c7raw 0 10 (15 / 100) 50 =
      [{time := 1, peaks := 100, basepairs := 2, peaksIndex := 1, assay := 10,
        peakName := 1}] := by
  refine ⟨?_, ?_, ?_, ?_⟩
  · norm_num [agnLabels, agnFlags, agnBasepairs, agnDetected, agnFiltered,
      findPeaksIdx, c7raw, List.range_succ, diffsWithFill, diffsAux]
  · norm_num [groupMaxAt, qmax, agnLabels, agnFlags, agnBasepairs, agnDetected,
      agnFiltered, findPeaksIdx, c7raw, List.range_succ, diffsWithFill, diffsAux]
  · norm_num [agnDetected, agnFiltered, findPeaksIdx, c7raw, List.range_succ]
  · norm_num [find_peaks_agnostic, agnLabels, agnFlags, agnBasepairs, agnDetected,
      agnFiltered, findPeaksIdx, c7raw, List.range_succ, diffsWithFill, diffsAux,
      groupMaxAt, qmax, List.filterMap_cons, List.enum]

/-- C7 (amended): in automatic mode the peak finder (i) considers only trace
entries with basepairs strictly greater than the start offset; (ii) starts a
new assay at row `i ≥ 1` exactly when the basepair gap to the previous
detected row strictly exceeds `distance_between_assays`; and (iii) keeps,
within each assay, exactly the peaks whose height is strictly greater than
`min_ratio` times the assay's tallest peak — a peak whose height is at or
below that fraction is dropped (the counterexample shows equality is
dropped, against the original claim's "at or above are retained"). -/
theorem claim_C7_agnostic_grouping (raw : List TraceRow)
    (searchStart h minRatio dist : ℚ) (hpos : 0 < h) :
    (∀ r ∈ find_peaks_agnostic raw searchStart h minRatio dist,
      searchStart < r.basepairs) ∧
    (∀ i, i + 1 < (agnLabels raw searchStart h dist).length →
      ((agnLabels raw searchStart h dist).getD (i + 1) none ≠
          (agnLabels raw searchStart h dist).getD i none ↔
        dist < (agnBasepairs raw searchStart h).getD (i + 1) 0 -
          (agnBasepairs raw searchStart h).getD i 0)) ∧
    find_peaks_agnostic raw searchStart h minRatio dist =
      ((List.range (agnDetected raw searchStart h).length).filterMap (fun i =>
        match (agnLabels raw searchStart h dist).getD i none with
        | none => none
        | some lab =>
          if minRatio * groupMaxAt raw searchStart h dist i <
              ((agnDetected raw searchStart h).getD i default).1.peaks then
            some ((agnDetected raw searchStart h).getD i default, lab)
          else none)).enum.map
        (fun p => ⟨p.2.1.1.time, p.2.1.1.peaks, p.2.1.1.basepairs,
          p.2.1.2, p.2.2, p.1 + 1⟩) := by
  refine ⟨?_, ?_, ?_⟩
  · intro r hr
    rw [find_peaks_agnostic] at hr
    obtain ⟨p, hp, hpr⟩ := List.mem_map.mp hr
    have hp2 := snd_mem_of_mem_enum hp
    obtain ⟨i, hiR, hfi⟩ := List.mem_filterMap.mp hp2
    have hiLen : i < (agnDetected raw searchStart h).length := List.mem_range.mp hiR
    rcases hlab : (agnLabels raw searchStart h dist).getD i none with _ | lab
    · rw [hlab] at hfi; cases hfi
    · rw [hlab] at hfi
      dsimp only at hfi
      split at hfi
      · have hpeq : p.2 = ((agnDetected raw searchStart h).getD i default, lab) := by
          injection hfi with heq
          exact heq.symm
        have hmemD : ((agnDetected raw searchStart h).getD i default) ∈
            agnDetected raw searchStart h := getD_mem_of_lt default hiLen
        have hfilt := (agnDetected_mem hmemD).1
        have hbp : searchStart <
            ((agnDetected raw searchStart h).getD i default).1.basepairs := by
          have := List.of_mem_filter
            (p := fun r : TraceRow => decide (searchStart < r.basepairs)) hfilt
          simpa using this
        rw [← hpr]
        simpa [hpeq] using hbp
      · cases hfi
  · intro i hi
    have hiF : i + 1 < (agnFlags raw searchStart h dist).length := by
      rw [agnLabels_length] at hi; exact hi
    have hiB : i + 1 < (agnBasepairs raw searchStart h).length := by
      rw [agnFlags_length] at hiF; exact hiF
    rcases hf : (agnFlags raw searchStart h dist).getD (i + 1) false with _ | _
    · have heq := agnLabels_flag_false raw searchStart h dist i hiF hf
      have hgap := agnFlags_getD raw searchStart h dist i hiB
      rw [hf] at hgap
      refine iff_of_false ?_ ?_
      · intro hne; exact hne heq
      · intro hlt
        exact absurd hlt (of_decide_eq_false hgap.symm)
    · have hnew := agnLabels_flag_true raw searchStart h dist (i + 1) hiF hf
      have hgap := agnFlags_getD raw searchStart h dist i hiB
      rw [hf] at hgap
      refine iff_of_true ?_ (of_decide_eq_true hgap.symm)
      rw [hnew]
      rcases hprev : (agnLabels raw searchStart h dist).getD i none with _ | lab
      · exact fun hcontra => by cases hcontra
      · obtain ⟨j, hj, hjlab⟩ :=
          agnLabels_bound raw searchStart h dist i (by omega) hprev
        intro hcontra
        have : (i + 2) * 10 = lab := by
          injection hcontra
        omega
  · rw [find_peaks_agnostic]
    have hkept : ∀ i ∈ List.range (agnDetected raw searchStart h).length,
        (match (agnLabels raw searchStart h dist).getD i none with
          | none => none
          | some lab =>
            if decide (minRatio <
                ((agnDetected raw searchStart h).getD i default).1.peaks /
                  groupMaxAt raw searchStart h dist i) then
              some ((agnDetected raw searchStart h).getD i default, lab)
            else none) =
        (match (agnLabels raw searchStart h dist).getD i none with
          | none => none
          | some lab =>
            if minRatio * groupMaxAt raw searchStart h dist i <
                ((agnDetected raw searchStart h).getD i default).1.peaks then
              some ((agnDetected raw searchStart h).getD i default, lab)
            else none) := by
      intro i hiR
      have hiLen : i < (agnDetected raw searchStart h).length := List.mem_range.mp hiR
      rcases hlab : (agnLabels raw searchStart h dist).getD i none with _ | lab
      · rfl
      · have hmemD : ((agnDetected raw searchStart h).getD i default) ∈
            agnDetected raw searchStart h := getD_mem_of_lt default hiLen
        have hgm : 0 < groupMaxAt raw searchStart h dist i :=
          lt_of_lt_of_le hpos (le_trans (agnDetected_mem hmemD).2
            (groupMaxAt_ge raw searchStart h dist i hiLen))
        have hiff : (decide (minRatio <
            ((agnDetected raw searchStart h).getD i default).1.peaks /
              groupMaxAt raw searchStart h dist i) = true) ↔
            (minRatio * groupMaxAt raw searchStart h dist i <
              ((agnDetected raw searchStart h).getD i default).1.peaks) := by
          rw [decide_eq_true_eq]
          exact lt_div_iff₀ hgm
        exact if_congr hiff rfl rfl
    rw [List.filterMap_congr hkept]

/-- Witness for C7 (amended): the height threshold `10` is positive and the
amended statement holds on the concrete trace `c7raw` with start offset 0,
`min_ratio = 15/100` and assay distance 50. -/
theorem claim_C7_agnostic_grouping_witness :
    (0 : ℚ) < 10 ∧
    ((∀ r ∈ find_peaks_agnostic c7raw 0 10 (15 / 100) 50, (0 : ℚ) < r.basepairs) ∧
    (∀ i, i + 1 < (agnLabels c7raw 0 10 50).length →
      ((agnLabels c7raw 0 10 50).getD (i + 1) none ≠
          (agnLabels c7raw 0 10 50).getD i none ↔
        (50 : ℚ) < (agnBasepairs c7raw 0 10).getD (i + 1) 0 -
          (agnBasepairs c7raw 0 10).getD i 0)) ∧
    find_peaks_agnostic c7raw 0 10 (15 / 100) 50 =
      ((List.range (agnDetected c7raw 0 10).length).filterMap (fun i =>
        match (agnLabels c7raw 0 10 50).getD i none with
        | none => none
        | some lab =>
          if (15 / 100 : ℚ) * groupMaxAt c7raw 0 10 50 i <
              ((agnDetected c7raw 0 10).getD i default).1.peaks then
            some ((agnDetected c7raw 0 10).getD i default, lab)
          else none)).enum.map
        (fun p => ⟨p.2.1.1.time, p.2.1.1.peaks, p.2.1.1.basepairs,
          p.2.1.2, p.2.2, p.1 + 1⟩)) :=
  ⟨by norm_num, claim_C7_agnostic_grouping c7raw 0 10 (15 / 100) 50 (by norm_num)⟩

/-- C8: if zero peaks survive filtering, `found_peaks` sets the flag to
`false`, raises nothing (it returns a value), and runs no downstream
quantification step; if at least one peak survives, the flag is `true` and
the downstream chain runs on the found peaks. -/
theorem claim_C8_no_peaks_short_circuit {α : Type} (info : List AgnPeak)
    (downstream : List AgnPeak → α) :
    (info = [] → found_peaks info downstream =
      { flag := false, downstream := none }) ∧
    (info ≠ [] → found_peaks info downstream =
      { flag := true, downstream := some (downstream info) }) := by
  constructor
  · intro hnil
    subst hnil
    rfl
  · intro hne
    rw [found_peaks, if_neg (by simpa [List.length_eq_zero] using hne)]

/-- Witness for C8: the automatic peak finder on an empty trace yields no
peaks, the flag is false and the downstream chain (here `List.length`) does
not run; a one-peak table flips the flag and runs it. -/
theorem claim_C8_no_peaks_short_circuit_witness :
    found_peaks (find_peaks_agnostic [] 0 350 (15 / 100) 15) List.length =
      { flag := false, downstream := none } ∧
    found_peaks
        [{time := 1, peaks := 100, basepairs := 2, peaksIndex := 1,
          assay := 10, peakName := 1}] List.length =
      { flag := true, downstream := some 1 } := by
  constructor
  · exact (claim_C8_no_peaks_short_circuit
      (find_peaks_agnostic [] 0 350 (15 / 100) 15) List.length).1 (by rfl)
  · exact (claim_C8_no_peaks_short_circuit
      [{time := 1, peaks := 100, basepairs := 2, peaksIndex := 1,
          assay := 10, peakName := 1}] List.length).2 (by simp)

/-- The scan of `findFirstRSq` reports no match exactly when the pattern
matches at no suffix position. -/
theorem findFirstRSq_none_iff (l : List Char) :
    findFirstRSq l = none ↔ ∀ i, rsqMatchAt (l.drop i) = none := by
  induction l with
  | nil =>
    constructor
    · intro _ i
      rw [List.drop_nil]
      rfl
    · intro _
      rfl
  | cons c cs ih =>
    rw [findFirstRSq]
    rcases hm : rsqMatchAt (c :: cs) with _ | v
    · simp only
      rw [ih]
      constructor
      · intro hall i
        cases i with
        | zero => exact hm
        | succ j => exact hall j
      · intro hall j
        exact hall (j + 1)
    · simp only
      constructor
      · intro hcontra; cases hcontra
      · intro hall
        have := hall 0
        rw [List.drop_zero] at this
        rw [this] at hm
        cases hm

/-- A reported match of `findFirstRSq` is the leftmost one. -/
theorem findFirstRSq_some (l : List Char) (v : List Char)
    (h : findFirstRSq l = some v) :
    ∃ i, rsqMatchAt (l.drop i) = some v ∧
      ∀ j < i, rsqMatchAt (l.drop j) = none := by
  induction l with
  | nil => cases h
  | cons c cs ih =>
    rw [findFirstRSq] at h
    rcases hm : rsqMatchAt (c :: cs) with _ | w
    · rw [hm] at h
      simp only at h
      obtain ⟨i, hi, hleft⟩ := ih h
      refine ⟨i + 1, by simpa using hi, ?_⟩
      intro j hj
      cases j with
      | zero => exact hm
      | succ k => exact hleft k (by omega)
    · rw [hm] at h
      simp only at h
      cases h
      exact ⟨0, by simpa using hm, by omega⟩

/-- C9: the r-value extraction of `peak_position_area_dataframe` returns the
value parsed from the leftmost substring of the report matching
`R-squared *= (0\.\d{3})` — `0.` followed by three digits — and raises
`IndexError` exactly when no position of the report matches, as happens for
a perfect fit printed as `1.000...` or a negative R-squared. -/
theorem claim_C9_r_value_extraction (report : String) :
    (extract_r_value report = .error () ↔
      ∀ i, rsqMatchAt (report.data.drop i) = none) ∧
    (∀ v, extract_r_value report = .ok v →
      ∃ i cs, rsqMatchAt (report.data.drop i) = some cs ∧
        v = floatOfCapture cs ∧
        ∀ j < i, rsqMatchAt (report.data.drop j) = none) := by
  have hext : extract_r_value report =
      (match findFirstRSq report.data with
        | some v => .ok (floatOfCapture v)
        | none => .error ()) := rfl
  constructor
  · rcases hf : findFirstRSq report.data with _ | w
    · rw [hext, hf]
      exact iff_of_true rfl ((findFirstRSq_none_iff report.data).mp hf)
    · rw [hext, hf]
      refine iff_of_false ?_ ?_
      · intro hcontra; cases hcontra
      · intro hall
        rw [(findFirstRSq_none_iff report.data).mpr hall] at hf
        cases hf
  · intro v hv
    rw [hext] at hv
    rcases hf : findFirstRSq report.data with _ | w
    · rw [hf] at hv; cases hv
    · rw [hf] at hv
      simp only [Except.ok.injEq] at hv
      obtain ⟨i, hi, hleft⟩ := findFirstRSq_some report.data w hf
      exact ⟨i, w, hi, hv.symm, hleft⟩

/-- Witness for C9: a report carrying `R-squared          = 0.98765` yields
the leftmost-match value `0.987`; a perfect-fit report printing `1.000` and
a negative one printing `-0.123` both fail with the modelled `IndexError`. -/
theorem claim_C9_r_value_extraction_witness :
    (∃ i cs, rsqMatchAt (c9hit.data.drop i) = some cs ∧
      floatOfCapture ['0', '.', '9', '8', '7'] = floatOfCapture cs ∧
      ∀ j < i, rsqMatchAt (c9hit.data.drop j) = none) ∧
    extract_r_value c9perfect = .error () ∧
    extract_r_value c9negative = .error () := by
  refine ⟨?_, ?_, ?_⟩
  · exact (claim_C9_r_value_extraction c9hit).2
      (floatOfCapture ['0', '.', '9', '8', '7']) (by rfl)
  · exact (claim_C9_r_value_extraction c9perfect).1.mpr
      ((findFirstRSq_none_iff c9perfect.data).mp (by rfl))
  · exact (claim_C9_r_value_extraction c9negative).1.mpr
      ((findFirstRSq_none_iff c9negative.data).mp (by rfl))

/-- C10: `divide_peaks` slices each padded window as
`iloc[peak_start - 4 : peak_end + 4]` without clamping the lower bound at
zero; whenever the floored peak start is smaller than the padding the slice
start is negative, Python indexes it relative to the end of the trace, and
the returned window differs from the intended left-clamped window — it can
even be empty. -/
theorem claim_C10_divide_peaks_negative_slice (pdf : List ℚ) (ps pe : ℕ)
    (hps : ps < 4) :
    ((ps : ℤ) - 4 < 0) ∧
    dividePeakWindow pdf ps pe 4 =
      (pdf.take (min (pe + 4) pdf.length)).drop (pdf.length + ps - 4) ∧
    divide_peaks pdf [(ps, pe)] 4 = [dividePeakWindow pdf ps pe 4] ∧
    ∃ l2 : List ℚ, ∃ ps2 pe2 : ℕ, ps2 < 4 ∧
      dividePeakWindow l2 ps2 pe2 4 = [] ∧
      pySlice l2 (max ((ps2 : ℤ) - 4) 0) ((pe2 : ℤ) + 4) ≠ [] := by
  refine ⟨by omega, ?_, rfl, ?_⟩
  · rw [dividePeakWindow, pySlice]
    simp only [Nat.cast_ofNat]
    have hneg : (ps : ℤ) - 4 < 0 := by omega
    have hpos : ¬ ((pe : ℤ) + 4 < 0) := by omega
    rw [if_pos hneg, if_neg hpos]
    have h1 : (min ((pe : ℤ) + 4) (pdf.length : ℤ)).toNat =
        min (pe + 4) pdf.length := by omega
    have h2 : (max ((pdf.length : ℤ) + ((ps : ℤ) - 4)) 0).toNat =
        pdf.length + ps - 4 := by omega
    rw [h1, h2]
  · refine ⟨List.replicate 20 0, 1, 3, by omega, by decide, by decide⟩

/-- Witness for C10: a 20-sample trace with `peak_start = 1 < 4` and
`peak_end = 3`: the slice used is `iloc[-3 : 7]`, which starts at position
17 of the trace and is empty, while the intended clamped window holds 7
samples. -/
theorem claim_C10_divide_peaks_negative_slice_witness :
    1 < 4 ∧
    (((1 : ℕ) : ℤ) - 4 < 0) ∧
    dividePeakWindow (List.replicate 20 (0 : ℚ)) 1 3 4 =
      ((List.replicate 20 (0 : ℚ)).take
        (min (3 + 4) (List.replicate 20 (0 : ℚ)).length)).drop
        ((List.replicate 20 (0 : ℚ)).length + 1 - 4) ∧
    dividePeakWindow (List.replicate 20 (0 : ℚ)) 1 3 4 = [] := by
  have h := claim_C10_divide_peaks_negative_slice (List.replicate 20 0) 1 3
    (by omega)
  exact ⟨by omega, h.1, h.2.1, by rfl⟩

end Fraggler
